import Mathlib

/-!
Verification of the log ingestion and aggregation pipeline of
`parse_access_logs.py` (Apache access-log analyzer).

The Python source is shallowly embedded below: the combined-log regex
`LOG_FORMAT` becomes the deterministic character parser `parseChars`
(every repetition in the regex is followed by a character it cannot
consume, so greedy maximal munch is exact and `re.match` prefix
semantics are kept); `datetime.strptime(_, '%d/%b/%Y:%H:%M:%S')`
becomes `parseTimestamp` (Python's strptime field regexes allow one- or
two-digit day/hour/minute/second, a four-digit year, case-insensitive
month abbreviations, requires full consumption of the string, and the
`datetime` constructor validates the calendar day and rejects year 0
and seconds 60/61); the nested `defaultdict` tables become association
lists with increment-upsert; the per-file `try/except` becomes the
abort behaviour of `processItems`.
-/

namespace ApacheLogs

/-- Characters Python's `\s` matches in the ASCII range (`str.split()` and
`\S` in `LOG_FORMAT` use this set; non-ASCII whitespace does not occur in
access logs). -/
def isPySpace (c : Char) : Bool :=
  c = ' ' ∨ c = '\t' ∨ c = '\n' ∨ c = '\r' ∨ c = '\x0b' ∨ c = '\x0c'

/-- `\S` of `LOG_FORMAT`. -/
def isNonSpace (c : Char) : Bool := !(isPySpace c)

/-- `\d` of `LOG_FORMAT` and of strptime field patterns. -/
def isDigitCh (c : Char) : Bool := '0' ≤ c ∧ c ≤ '9'

/-- Numeric value of a digit character. -/
def digitVal (c : Char) : Nat := c.toNat - 48

/-- Maximal munch of one-or-more characters satisfying `p` (the regex
pieces `\S+`, `[^\]]+`, `[^"]+`: each is followed in `LOG_FORMAT` by a
character failing `p`, so the greedy match without backtracking is
exact). -/
def munch1 (p : Char → Bool) : List Char → Option (List Char × List Char)
  | [] => none
  | c :: cs => if p c then some (c :: cs.takeWhile p, cs.dropWhile p) else none

/-- Match one literal character of the regex. -/
def expectCh (c : Char) : List Char → Option (List Char)
  | [] => none
  | d :: rest => if d = c then some rest else none

/-- `\d{3}` (the status field): exactly three digit characters. -/
def digit3 : List Char → Option (List Char × List Char)
  | a :: b :: c :: rest =>
      if isDigitCh a ∧ isDigitCh b ∧ isDigitCh c then some ([a, b, c], rest) else none
  | _ => none

/-- One parsed log line: the named groups of `LOG_FORMAT` (the timestamp
still in raw textual form, as in the Python `match` object). -/
structure Record where
  ip : List Char
  time : List Char
  request : List Char
  status : List Char
  size : List Char
  referer : List Char
  user_agent : List Char
deriving DecidableEq

/-- The opening `(?P<ip>\S+) \S+ \S+ \[` of `LOG_FORMAT`: yields the ip
group and the input remaining after the `[`. -/
def parseHead (cs : List Char) : Option (List Char × List Char) :=
  (munch1 isNonSpace cs).bind fun p1 =>
  (expectCh ' ' p1.2).bind fun r2 =>
  (munch1 isNonSpace r2).bind fun p2 =>
  (expectCh ' ' p2.2).bind fun r4 =>
  (munch1 isNonSpace r4).bind fun p3 =>
  (expectCh ' ' p3.2).bind fun r6 =>
  (expectCh '[' r6).map fun r7 => (p1.1, r7)

/-- `(?P<time>[^\]]+)\] ` of `LOG_FORMAT`: the raw time group and the
remaining input. -/
def parseTimePart (cs : List Char) : Option (List Char × List Char) :=
  (munch1 (fun c => c != ']') cs).bind fun pt =>
  (expectCh ']' pt.2).bind fun r9 =>
  (expectCh ' ' r9).map fun r10 => (pt.1, r10)

/-- A `"([^"]+)"` group of `LOG_FORMAT` (request, referer, user agent). -/
def quotedField (cs : List Char) : Option (List Char × List Char) :=
  (expectCh '"' cs).bind fun r1 =>
  (munch1 (fun c => c != '"') r1).bind fun pq =>
  (expectCh '"' pq.2).map fun r3 => (pq.1, r3)

/-- `(?P<status>\d{3}) (?P<size>\S+) ` of `LOG_FORMAT`: status group,
size group, and the remaining input. -/
def parseMid (cs : List Char) : Option (List Char × List Char × List Char) :=
  (digit3 cs).bind fun ps =>
  (expectCh ' ' ps.2).bind fun r2 =>
  (munch1 isNonSpace r2).bind fun pz =>
  (expectCh ' ' pz.2).map fun r4 => (ps.1, pz.1, r4)

/-- `re.match(LOG_FORMAT, line)`: anchored at the start of the line,
matching a prefix; trailing text after the user-agent field is ignored. -/
def parseChars (cs : List Char) : Option Record :=
  (parseHead cs).bind fun hd =>
  (parseTimePart hd.2).bind fun tp =>
  (quotedField tp.2).bind fun rq =>
  (expectCh ' ' rq.2).bind fun r1 =>
  (parseMid r1).bind fun md =>
  (quotedField md.2.2).bind fun rf =>
  (expectCh ' ' rf.2).bind fun r2 =>
  (quotedField r2).map fun ua =>
  { ip := hd.1, time := tp.1, request := rq.1, status := md.1,
    size := md.2.1, referer := rf.1, user_agent := ua.1 }

/-- `re.match(LOG_FORMAT, line)` on a line read from a file. -/
def parseLine (line : String) : Option Record := parseChars line.data

/-- A calendar date-time as produced by `datetime.strptime`. -/
structure DateTime where
  year : Nat
  month : Nat
  day : Nat
  hour : Nat
  minute : Nat
  second : Nat
deriving DecidableEq

/-- A calendar date, as returned by `.date()`. -/
structure Date where
  year : Nat
  month : Nat
  day : Nat
deriving DecidableEq

/-- `datetime.date()`. -/
def dateOf (t : DateTime) : Date := ⟨t.year, t.month, t.day⟩

/-- Gregorian leap-year rule used by `datetime`. -/
def isLeapYear (y : Nat) : Bool := y % 4 = 0 ∧ (y % 100 ≠ 0 ∨ y % 400 = 0)

/-- Days in a month, as validated by the `datetime` constructor. -/
def daysInMonth (y m : Nat) : Nat :=
  if m = 2 then (if isLeapYear y then 29 else 28)
  else if m = 4 ∨ m = 6 ∨ m = 9 ∨ m = 11 then 30
  else 31

/-- A one-or-two-digit numeric strptime field (`%d`, `%H`, `%M`, `%S`).
Python's field regex alternation tries the two-digit branches first; since
the following format character is never a digit, the match is: two leading
digits must form a value in `[lo2, hi2]`, a single leading digit must be at
least `lo1`. For `%d` this is `lo2 = 1, hi2 = 31, lo1 = 1`; for `%H`
`0, 23, 0`; for `%M` `0, 59, 0`; for `%S` the regex admits 60 and 61 but the
`datetime` constructor then raises, so the net bound is `0, 59, 0`. -/
def readNum2 (lo2 hi2 lo1 : Nat) : List Char → Option (Nat × List Char)
  | c1 :: c2 :: rest =>
      if isDigitCh c1 then
        if isDigitCh c2 then
          let v := 10 * digitVal c1 + digitVal c2
          if lo2 ≤ v ∧ v ≤ hi2 then some (v, rest) else none
        else if lo1 ≤ digitVal c1 then some (digitVal c1, c2 :: rest) else none
      else none
  | [c1] => if isDigitCh c1 ∧ lo1 ≤ digitVal c1 then some (digitVal c1, []) else none
  | [] => none

/-- `%Y`: exactly four digits. -/
def readYear4 : List Char → Option (Nat × List Char)
  | a :: b :: c :: d :: rest =>
      if isDigitCh a ∧ isDigitCh b ∧ isDigitCh c ∧ isDigitCh d then
        some (1000 * digitVal a + 100 * digitVal b + 10 * digitVal c + digitVal d, rest)
      else none
  | _ => none

/-- The C-locale month abbreviations, lowercased, in order. -/
def monthNames : List (List Char) :=
  [['j', 'a', 'n'], ['f', 'e', 'b'], ['m', 'a', 'r'], ['a', 'p', 'r'],
   ['m', 'a', 'y'], ['j', 'u', 'n'], ['j', 'u', 'l'], ['a', 'u', 'g'],
   ['s', 'e', 'p'], ['o', 'c', 't'], ['n', 'o', 'v'], ['d', 'e', 'c']]

/-- `%b`: a three-letter month abbreviation (already lowercased by the
caller, as strptime compares case-insensitively): its 1-based position in
`monthNames`, or `none` when it is no month name. -/
def monthNum (x y z : Char) : Option Nat :=
  if monthNames.indexOf [x, y, z] < 12 then some (monthNames.indexOf [x, y, z] + 1)
  else none

/-- Consume a `%b` field (strptime lowercases both sides, hence the
`toLower`). -/
def readMonth : List Char → Option (Nat × List Char)
  | a :: b :: c :: rest => (monthNum a.toLower b.toLower c.toLower).map (fun m => (m, rest))
  | _ => none

/-- The `%H:%M:%S` tail of the strptime format: hour, minute, second and
the remaining input. -/
def readHMS (cs : List Char) : Option (Nat × Nat × Nat × List Char) :=
  (readNum2 0 23 0 cs).bind fun ph =>
  (expectCh ':' ph.2).bind fun r2 =>
  (readNum2 0 59 0 r2).bind fun pmi =>
  (expectCh ':' pmi.2).bind fun r4 =>
  (readNum2 0 59 0 r4).map fun ps => (ph.1, pmi.1, ps.1, ps.2)

/-- `datetime.strptime(time_str, '%d/%b/%Y:%H:%M:%S')`: strptime requires
the whole string to be consumed; the `datetime` constructor additionally
requires `1 ≤ year` and a calendar-valid day. On any failure strptime
raises `ValueError`, modelled as `none`. -/
def parseTimestamp (cs : List Char) : Option DateTime :=
  (readNum2 1 31 1 cs).bind fun pd =>
  (expectCh '/' pd.2).bind fun r2 =>
  (readMonth r2).bind fun pm =>
  (expectCh '/' pm.2).bind fun r4 =>
  (readYear4 r4).bind fun py =>
  (expectCh ':' py.2).bind fun r6 =>
  (readHMS r6).bind fun hms =>
  if hms.2.2.2 = [] ∧ 1 ≤ py.1 ∧ pd.1 ≤ daysInMonth py.1 pm.1 then
    some ⟨py.1, pm.1, pd.1, hms.1, hms.2.1, hms.2.2.1⟩
  else none

/-- `match.group('time').split()[0]`: the first whitespace-separated token
of the raw timestamp group; `none` models the `IndexError` when the group
is all whitespace. -/
def firstToken (cs : List Char) : Option (List Char) :=
  let r := cs.dropWhile isPySpace
  if r.isEmpty then none else some (r.takeWhile (fun c => !(isPySpace c)))

/-- `datetime.strptime(match.group('time').split()[0], '%d/%b/%Y:%H:%M:%S')`:
`none` models the exception (IndexError or ValueError) that the per-file
`try/except` catches. -/
def normTime (time : List Char) : Option DateTime :=
  (firstToken time).bind parseTimestamp

/-- The date window `(start_date, end_date)` of a run (the `.date()`
values compared in the filter). -/
structure Window where
  start_date : Date
  end_date : Date
deriving DecidableEq

/-- Python `date` comparison: lexicographic on (year, month, day). -/
def dateLeB (a b : Date) : Bool :=
  decide (a.year < b.year ∨ (a.year = b.year ∧
    (a.month < b.month ∨ (a.month = b.month ∧ a.day ≤ b.day))))

/-- `start_date.date() <= log_date <= end_date.date()`. -/
def inWindow (w : Window) (t : DateTime) : Bool :=
  dateLeB w.start_date (dateOf t) && dateLeB (dateOf t) w.end_date

/-- Zero-padded decimal rendering of `n` to exactly `w` digits,
most-significant first (the strftime directives `%Y`/`%m`/`%d`/`%H`). -/
def digitChar (n : Nat) : Char := Char.ofNat (48 + n % 10)

/-- See `digitChar`. -/
def padNat : Nat → Nat → List Char
  | 0, _ => []
  | w + 1, n => padNat w (n / 10) ++ [digitChar (n % 10)]

/-- `log_time.strftime('%Y-%m-%d %H:00')`: the hour-bucket key. -/
def bucketChars (t : DateTime) : List Char :=
  padNat 4 t.year ++ '-' :: (padNat 2 t.month ++ '-' ::
    (padNat 2 t.day ++ ' ' :: (padNat 2 t.hour ++ [':', '0', '0'])))

/-- Chronological order of calendar hours: lexicographic on
(year, month, day, hour). -/
def hourLt (t1 t2 : DateTime) : Prop :=
  t1.year < t2.year ∨ (t1.year = t2.year ∧ (t1.month < t2.month ∨ (t1.month = t2.month ∧
    (t1.day < t2.day ∨ (t1.day = t2.day ∧ t1.hour < t2.hour)))))

/-- An `hour → ip → count` table (`defaultdict(lambda: defaultdict(int))`),
as an insertion-ordered association list, like a Python dict. -/
abbrev Stats : Type := List (List Char × List (List Char × Nat))

/-- `inner[ip] += n` on an ip-count dict: update the entry in place, or
append a fresh one (defaultdict starts the absent key at 0). -/
def bumpBy : List (List Char × Nat) → List Char → Nat → List (List Char × Nat)
  | [], ip, n => [(ip, n)]
  | (k, c) :: rest, ip, n =>
      if k = ip then (k, c + n) :: rest else (k, c) :: bumpBy rest ip n

/-- `stats[hour][ip] += n`. -/
def bumpStats : Stats → List Char → List Char → Nat → Stats
  | [], h, ip, n => [(h, [(ip, n)])]
  | (k, m) :: rest, h, ip, n =>
      if k = h then (k, bumpBy m ip n) :: rest else (k, m) :: bumpStats rest h ip n

/-- Dict lookup on the inner table, defaulting to 0 (absent key = zero). -/
def lookupIp : List (List Char × Nat) → List Char → Nat
  | [], _ => 0
  | (k, c) :: rest, ip => if k = ip then c else lookupIp rest ip

/-- `stats[hour][ip]` read-only, defaulting to 0. -/
def getCount : Stats → List Char → List Char → Nat
  | [], _, _ => 0
  | (k, m) :: rest, h, ip => if k = h then lookupIp m ip else getCount rest h ip

/-- Total of all stored counts at key `ip` in an inner table (agrees with
`lookupIp` whenever keys are unique, which every table built by the
program satisfies, but needs no such hypothesis). -/
def totalIn : List (List Char × Nat) → List Char → Nat
  | [], _ => 0
  | q :: rest, ip => (if q.1 = ip then q.2 else 0) + totalIn rest ip

/-- Total of all stored counts at `(hour, ip)` in a table. -/
def totalCount : Stats → List Char → List Char → Nat
  | [], _, _ => 0
  | p :: rest, h, ip => (if p.1 = h then totalIn p.2 ip else 0) + totalCount rest h ip

/-- One event while streaming a source's lines: either a text line was
yielded, or the read raised (permission error, corruption, ...) at that
point. -/
inductive Item where
  | line (s : String)
  | readErr
deriving DecidableEq

/-- Whether processing this item raises the exception that the per-file
`try/except` catches: a read error, or a line that matches `LOG_FORMAT`
but whose timestamp text fails `split()[0]`/`strptime`. -/
def aborts : Item → Bool
  | Item.readErr => true
  | Item.line l =>
      match parseLine l with
      | none => false
      | some r => (normTime r.time).isNone

/-- The body of `process_log_file` (and of the identical loop in
`process_archived_logs`): stream the items of one source, skipping
non-matching lines, filtering by the date window, and incrementing the
`hour → ip` table; an exception (read error or timestamp failure) is
caught by the surrounding `except`, which stops this source and keeps the
counts accumulated so far. -/
def processItems (w : Window) : List Item → Stats → Stats
  | [], st => st
  | Item.readErr :: _, st => st
  | Item.line l :: rest, st =>
      match parseLine l with
      | none => processItems w rest st
      | some r =>
          match normTime r.time with
          | none => st
          | some t =>
              if inWindow w t then
                processItems w rest (bumpStats st (bucketChars t) r.ip 1)
              else processItems w rest st

/-- `process_logs` / the source loop of `process_archived_logs`: each
candidate source is either absent (`none`: `os.path.isfile` fails, a
warning is logged and it is skipped) or present with its stream of items;
sources are processed in order into one table. -/
def processLogs (w : Window) : List (Option (List Item)) → Stats → Stats
  | [], st => st
  | none :: rest, st => processLogs w rest st
  | some items :: rest, st => processLogs w rest (processItems w items st)

/-- The number of items of a source that the run actually counts into key
`(h, ip)`: matching, in-window lines bucketed to `h` with source ip `ip`,
up to the first aborting item. -/
def countKeyed (w : Window) (h ip : List Char) : List Item → Nat
  | [] => 0
  | Item.readErr :: _ => 0
  | Item.line l :: rest =>
      match parseLine l with
      | none => countKeyed w h ip rest
      | some r =>
          match normTime r.time with
          | none => 0
          | some t =>
              (if inWindow w t ∧ bucketChars t = h ∧ r.ip = ip then 1 else 0) +
                countKeyed w h ip rest

/-- Inner loop of the archive merge in `main`:
`for ip, count in ip_data.items(): domain_stats[hour][ip] += count`. -/
def mergeInner (dst : Stats) (h : List Char) : List (List Char × Nat) → Stats
  | [] => dst
  | (ip, c) :: rest => mergeInner (bumpStats dst h ip c) h rest

/-- The archive merge in `main`: fold every `(hour, ip, count)` entry of
`src` into `dst` by summing. -/
def mergeInto (dst : Stats) : Stats → Stats
  | [] => dst
  | (h, m) :: rest => mergeInto (mergeInner dst h m) rest

/-- The global `domain → hour → ip → count` table (`all_stats`). -/
abbrev AllStats : Type := List (List Char × Stats)

/-- `all_stats[domain][hour][ip] += n`. -/
def bumpAll : AllStats → List Char → List Char → List Char → Nat → AllStats
  | [], d, h, ip, n => [(d, bumpStats [] h ip n)]
  | (k, st) :: rest, d, h, ip, n =>
      if k = d then (k, bumpStats st h ip n) :: rest
      else (k, st) :: bumpAll rest d h ip n

/-- Inner loop of the global merge in `main`. -/
def addInner (all : AllStats) (d h : List Char) : List (List Char × Nat) → AllStats
  | [] => all
  | (ip, c) :: rest => addInner (bumpAll all d h ip c) d h rest

/-- The global merge in `main`: `for hour, ip_data in domain_stats.items():
for ip, count in ip_data.items(): all_stats[domain][hour][ip] += count`. -/
def addToGlobal (all : AllStats) (d : List Char) : Stats → AllStats
  | [] => all
  | (h, m) :: rest => addToGlobal (addInner all d h m) d rest

/-- `all_stats[domain][hour][ip]` read-only, defaulting to 0. -/
def getAll : AllStats → List Char → List Char → List Char → Nat
  | [], _, _, _ => 0
  | (k, st) :: rest, d, h, ip => if k = d then getCount st h ip else getAll rest d h ip

/-- Split a character list on every (non-overlapping, leftmost-first)
occurrence of the two-character separator `[a, b]`; Python
`str.split("==")` with `a = b = '='`. -/
def splitOnPair (a b : Char) : List Char → List (List Char)
  | [] => [[]]
  | [c] => [[c]]
  | c :: d :: cs =>
      if c = a ∧ d = b then [] :: splitOnPair a b cs
      else
        match splitOnPair a b (d :: cs) with
        | [] => [[c]]
        | x :: xs => (c :: x) :: xs

/-- Python `str.split(":")`. -/
def splitOnCh (a : Char) : List Char → List (List Char)
  | [] => [[]]
  | c :: cs =>
      if c = a then [] :: splitOnCh a cs
      else
        match splitOnCh a cs with
        | [] => [[c]]
        | x :: xs => (c :: x) :: xs

/-- Python `str.strip()`. -/
def stripChars (cs : List Char) : List Char :=
  ((cs.dropWhile isPySpace).reverse.dropWhile isPySpace).reverse

/-- One line of the registry file inside `parse_domain_list`'s loop:
`Except.error ()` models the uncaught `ValueError` of the tuple unpacking
`domain_name, user = parts[0].split(":")` when the first `==`-field does
not split into exactly two parts; `Except.ok none` is a line skipped by
the `len(parts) >= 2` test; `Except.ok (some (d, u))` a loaded entry. -/
def procLine (cs : List Char) : Except Unit (Option (List Char × List Char)) :=
  let parts := splitOnPair '=' '=' (stripChars cs)
  if 2 ≤ parts.length then
    match splitOnCh ':' (parts.headD []) with
    | [d, u] => Except.ok (some (stripChars d, stripChars u))
    | _ => Except.error ()
  else Except.ok none

/-- `domains[domain_name.strip()] = user.strip()`: dict overwrite. -/
def setDom : List (List Char × List Char) → List Char → List Char →
    List (List Char × List Char)
  | [], d, u => [(d, u)]
  | (k, v) :: rest, d, u =>
      if k = d then (k, u) :: rest else (k, v) :: setDom rest d u

/-- The line loop of `parse_domain_list` with accumulated dict `acc`. -/
def loadDomains : List (List Char) → List (List Char × List Char) →
    Except Unit (List (List Char × List Char))
  | [], acc => Except.ok acc
  | l :: rest, acc =>
      match procLine l with
      | Except.error _ => Except.error ()
      | Except.ok none => loadDomains rest acc
      | Except.ok (some (d, u)) => loadDomains rest (setDom acc d u)

/-- `parse_domain_list` applied to the lines of a successfully opened
registry file: `Except.error ()` means the function raises. -/
def parse_domain_list (lines : List (List Char)) :
    Except Unit (List (List Char × List Char)) :=
  loadDomains lines []

/-- Invariant of every table the program builds: each stored `(hour, ip)`
entry has count at least 1 (absence, never an explicit zero, encodes
zero observed requests). -/
def BoundedIn (m : List (List Char × Nat)) : Prop := ∀ q ∈ m, 1 ≤ q.2

/-- See `BoundedIn`. -/
def Bounded (st : Stats) : Prop := ∀ p ∈ st, BoundedIn p.2

/-- See `BoundedIn`. -/
def BoundedAll (a : AllStats) : Prop := ∀ p ∈ a, Bounded p.2

/-- A well-formed combined-log line dated 15/Mar/2024 09:47:33, ip 1.2.3.4. -/
def sampleGood : String :=
  "1.2.3.4 - - [15/Mar/2024:09:47:33 +0000] \"GET / HTTP/1.1\" 200 123 \"-\" \"UA\""

/-- The same line except the timestamp separators are dashes, so `LOG_FORMAT`
matches but `strptime` raises. -/
def sampleBadTime : String :=
  "1.2.3.4 - - [15/Mar/2024:09-47-33 +0000] \"GET / HTTP/1.1\" 200 123 \"-\" \"UA\""

/-- A second well-formed line, ip 5.6.7.8, hour 10. -/
def sampleGood2 : String :=
  "5.6.7.8 - - [15/Mar/2024:10:00:00 +0000] \"GET / HTTP/1.1\" 200 5 \"-\" \"UA\""

/-- A date window containing March 2024. -/
def sampleWindow : Window := ⟨⟨2024, 3, 1⟩, ⟨2024, 3, 31⟩⟩

/-! ### Association-table lemmas -/

theorem lookupIp_bumpBy (m : List (List Char × Nat)) (ip j : List Char) (n : Nat) :
    lookupIp (bumpBy m ip n) j = lookupIp m j + (if j = ip then n else 0) := by
  induction m with
  | nil =>
    rcases eq_or_ne ip j with rfl | h
    · simp [bumpBy, lookupIp]
    · simp [bumpBy, lookupIp, h, Ne.symm h]
  | cons q rest ih =>
    obtain ⟨k, c⟩ := q
    by_cases hk : k = ip
    · subst hk
      rcases eq_or_ne k j with rfl | h
      · simp [bumpBy, lookupIp]
      · simp [bumpBy, lookupIp, h, Ne.symm h]
    · rcases eq_or_ne k j with rfl | h
      · have : ¬ (k = ip) := hk
        simp [bumpBy, lookupIp, this, Ne.symm hk]
      · simp [bumpBy, lookupIp, hk, h, ih]

theorem getCount_bumpStats (st : Stats) (h ip h' ip' : List Char) (n : Nat) :
    getCount (bumpStats st h ip n) h' ip' =
      getCount st h' ip' + (if h' = h ∧ ip' = ip then n else 0) := by
  induction st with
  | nil =>
    rcases eq_or_ne h h' with rfl | hh
    · rcases eq_or_ne ip ip' with rfl | hip
      · simp [bumpStats, getCount, lookupIp]
      · simp [bumpStats, getCount, lookupIp, hip, Ne.symm hip]
    · simp [bumpStats, getCount, hh, Ne.symm hh, lookupIp]
  | cons q rest ih =>
    obtain ⟨k, m⟩ := q
    by_cases hk : k = h
    · subst hk
      rcases eq_or_ne k h' with rfl | hh
      · simp [bumpStats, getCount, lookupIp_bumpBy]
      · simp [bumpStats, getCount, hh, Ne.symm hh]
    · rcases eq_or_ne k h' with rfl | hh
      · simp [bumpStats, getCount, hk, Ne.symm hk]
      · simp [bumpStats, getCount, hk, hh, ih]

theorem totalIn_bumpBy (m : List (List Char × Nat)) (ip j : List Char) (n : Nat) :
    totalIn (bumpBy m ip n) j = totalIn m j + (if ip = j then n else 0) := by
  induction m with
  | nil => simp [bumpBy, totalIn]
  | cons q rest ih =>
    obtain ⟨k, c⟩ := q
    by_cases hk : k = ip
    · subst hk
      simp only [bumpBy, if_pos rfl, totalIn]
      by_cases hj : k = j
      · simp [hj]; omega
      · simp [hj]
    · simp only [bumpBy, if_neg hk, totalIn, ih]
      omega

theorem totalCount_bumpStats (st : Stats) (h ip h' ip' : List Char) (n : Nat) :
    totalCount (bumpStats st h ip n) h' ip' =
      totalCount st h' ip' + (if h = h' ∧ ip = ip' then n else 0) := by
  induction st with
  | nil =>
    simp only [bumpStats, totalCount, totalIn]
    by_cases hh : h = h'
    · subst hh
      by_cases hip : ip = ip'
      · subst hip; simp
      · simp [hip]
    · simp [hh]
  | cons q rest ih =>
    obtain ⟨k, m⟩ := q
    by_cases hk : k = h
    · subst hk
      simp only [bumpStats, if_pos rfl, totalCount, totalIn_bumpBy]
      by_cases hh : k = h'
      · by_cases hip : ip = ip'
        · subst hip
          simp [hh]
          omega
        · simp [hh, hip]
      · simp [hh]
    · simp only [bumpStats, if_neg hk, totalCount, ih]
      omega

theorem getCount_mergeInner (m : List (List Char × Nat)) (dst : Stats) (h h' ip' : List Char) :
    getCount (mergeInner dst h m) h' ip' =
      getCount dst h' ip' + (if h' = h then totalIn m ip' else 0) := by
  induction m generalizing dst with
  | nil => simp [mergeInner, totalIn]
  | cons q rest ih =>
    obtain ⟨ip, c⟩ := q
    simp only [mergeInner, ih, getCount_bumpStats, totalIn]
    by_cases hh : h' = h
    · subst hh
      by_cases hip : ip = ip'
      · subst hip; simp; omega
      · simp [hip, Ne.symm hip]
    · simp [hh]

theorem getCount_mergeInto (src : Stats) (dst : Stats) (h' ip' : List Char) :
    getCount (mergeInto dst src) h' ip' = getCount dst h' ip' + totalCount src h' ip' := by
  induction src generalizing dst with
  | nil => simp [mergeInto, totalCount]
  | cons q rest ih =>
    obtain ⟨h, m⟩ := q
    simp only [mergeInto, ih, getCount_mergeInner, totalCount]
    by_cases hh : h' = h
    · subst hh; simp; omega
    · simp [hh, Ne.symm hh]

theorem totalCount_mergeInner (m : List (List Char × Nat)) (dst : Stats) (h h' ip' : List Char) :
    totalCount (mergeInner dst h m) h' ip' =
      totalCount dst h' ip' + (if h = h' then totalIn m ip' else 0) := by
  induction m generalizing dst with
  | nil => simp [mergeInner, totalIn]
  | cons q rest ih =>
    obtain ⟨ip, c⟩ := q
    simp only [mergeInner, ih, totalCount_bumpStats, totalIn]
    by_cases hh : h = h'
    · subst hh
      by_cases hip : ip = ip'
      · subst hip; simp; omega
      · simp [hip]
    · simp [hh]

theorem totalCount_mergeInto (src : Stats) (dst : Stats) (h' ip' : List Char) :
    totalCount (mergeInto dst src) h' ip' =
      totalCount dst h' ip' + totalCount src h' ip' := by
  induction src generalizing dst with
  | nil => simp [mergeInto, totalCount]
  | cons q rest ih =>
    obtain ⟨h, m⟩ := q
    simp only [mergeInto, ih, totalCount_mergeInner, totalCount]
    by_cases hh : h = h'
    · subst hh; simp; omega
    · simp [hh]

theorem getAll_bumpAll (all : AllStats) (d h ip d' h' ip' : List Char) (n : Nat) :
    getAll (bumpAll all d h ip n) d' h' ip' =
      getAll all d' h' ip' + (if d' = d ∧ h' = h ∧ ip' = ip then n else 0) := by
  induction all with
  | nil =>
    rcases eq_or_ne d d' with rfl | hd
    · rcases eq_or_ne h h' with rfl | hh
      · rcases eq_or_ne ip ip' with rfl | hip
        · simp [bumpAll, getAll, bumpStats, getCount, lookupIp, bumpBy]
        · simp [bumpAll, getAll, bumpStats, getCount, lookupIp, bumpBy, hip, Ne.symm hip]
      · simp [bumpAll, getAll, bumpStats, getCount, lookupIp, bumpBy, hh, Ne.symm hh]
    · simp [bumpAll, getAll, hd, Ne.symm hd]
  | cons q rest ih =>
    obtain ⟨k, st⟩ := q
    by_cases hk : k = d
    · subst hk
      rcases eq_or_ne k d' with rfl | hd
      · simp [bumpAll, getAll, getCount_bumpStats]
      · simp [bumpAll, getAll, hd, Ne.symm hd]
    · rcases eq_or_ne k d' with rfl | hd
      · simp [bumpAll, getAll, hk, Ne.symm hk]
      · simp [bumpAll, getAll, hk, hd, ih]

theorem getAll_addInner (m : List (List Char × Nat)) (all : AllStats) (d h d' h' ip' : List Char) :
    getAll (addInner all d h m) d' h' ip' =
      getAll all d' h' ip' + (if d' = d ∧ h' = h then totalIn m ip' else 0) := by
  induction m generalizing all with
  | nil => simp [addInner, totalIn]
  | cons q rest ih =>
    obtain ⟨ip, c⟩ := q
    simp only [addInner, ih, getAll_bumpAll, totalIn]
    by_cases hd : d' = d
    · by_cases hh : h' = h
      · subst hd; subst hh
        by_cases hip : ip = ip'
        · subst hip; simp; omega
        · simp [hip, Ne.symm hip]
      · simp [hh]
    · simp [hd]

theorem getAll_addToGlobal (st : Stats) (all : AllStats) (d d' h' ip' : List Char) :
    getAll (addToGlobal all d st) d' h' ip' =
      getAll all d' h' ip' + (if d' = d then totalCount st h' ip' else 0) := by
  induction st generalizing all with
  | nil => simp [addToGlobal, totalCount]
  | cons q rest ih =>
    obtain ⟨h, m⟩ := q
    simp only [addToGlobal, ih, getAll_addInner, totalCount]
    by_cases hd : d' = d
    · subst hd
      by_cases hh : h' = h
      · subst hh; simp; omega
      · simp [hh, Ne.symm hh]
    · simp [hd]

/-! ### Processing lemmas -/

theorem getCount_processItems (w : Window) (items : List Item) (st : Stats)
    (h ip : List Char) :
    getCount (processItems w items st) h ip = getCount st h ip + countKeyed w h ip items := by
  induction items generalizing st with
  | nil => simp [processItems, countKeyed]
  | cons i rest ih =>
    cases i with
    | readErr => simp [processItems, countKeyed]
    | line l =>
      rcases hp : parseLine l with _ | r
      · simp [processItems, countKeyed, hp, ih]
      · rcases ht : normTime r.time with _ | t
        · simp [processItems, countKeyed, hp, ht]
        · by_cases hw : inWindow w t = true
          · simp only [processItems, countKeyed, hp, ht, if_pos hw, ih, getCount_bumpStats]
            by_cases hb : bucketChars t = h
            · by_cases hip : r.ip = ip
              · simp [hb, hip, hw]; omega
              · simp [hb, hip, hw, Ne.symm hip]
            · simp [hb, hw, Ne.symm hb]
          · simp [processItems, countKeyed, hp, ht, hw, ih]

theorem totalCount_processItems (w : Window) (items : List Item) (st : Stats)
    (h ip : List Char) :
    totalCount (processItems w items st) h ip =
      totalCount st h ip + countKeyed w h ip items := by
  induction items generalizing st with
  | nil => simp [processItems, countKeyed]
  | cons i rest ih =>
    cases i with
    | readErr => simp [processItems, countKeyed]
    | line l =>
      rcases hp : parseLine l with _ | r
      · simp [processItems, countKeyed, hp, ih]
      · rcases ht : normTime r.time with _ | t
        · simp [processItems, countKeyed, hp, ht]
        · by_cases hw : inWindow w t = true
          · simp only [processItems, countKeyed, hp, ht, if_pos hw, ih, totalCount_bumpStats]
            by_cases hb : bucketChars t = h
            · by_cases hip : r.ip = ip
              · simp [hb, hip, hw]; omega
              · simp [hb, hip, hw]
            · simp [hb, hw]
          · simp [processItems, countKeyed, hp, ht, hw, ih]

theorem boundedIn_bumpBy (m : List (List Char × Nat)) (ip : List Char) (n : Nat) :
    BoundedIn m → 1 ≤ n → BoundedIn (bumpBy m ip n) := by
  induction m with
  | nil =>
    intro _ hn q hq
    simp only [bumpBy, List.mem_singleton] at hq
    subst hq; exact hn
  | cons p rest ih =>
    intro hm hn q hq
    obtain ⟨k, c⟩ := p
    by_cases hk : k = ip
    · simp only [bumpBy, if_pos hk] at hq
      rcases List.mem_cons.1 hq with rfl | hq
      · have := hm (k, c) (List.mem_cons_self _ _)
        simp only at this ⊢
        omega
      · exact hm q (List.mem_cons_of_mem _ hq)
    · simp only [bumpBy, if_neg hk] at hq
      rcases List.mem_cons.1 hq with rfl | hq
      · exact hm (k, c) (List.mem_cons_self _ _)
      · exact ih (fun p hp => hm p (List.mem_cons_of_mem _ hp)) hn q hq

theorem bounded_bumpStats (st : Stats) (h ip : List Char) (n : Nat) :
    Bounded st → 1 ≤ n → Bounded (bumpStats st h ip n) := by
  induction st with
  | nil =>
    intro _ hn p hp
    simp only [bumpStats, List.mem_singleton] at hp
    subst hp
    intro q hq
    simp only [List.mem_singleton] at hq
    subst hq; exact hn
  | cons e rest ih =>
    intro hst hn p hp
    obtain ⟨k, m⟩ := e
    by_cases hk : k = h
    · simp only [bumpStats, if_pos hk] at hp
      rcases List.mem_cons.1 hp with rfl | hp
      · exact boundedIn_bumpBy m ip n (hst (k, m) (List.mem_cons_self _ _)) hn
      · exact hst p (List.mem_cons_of_mem _ hp)
    · simp only [bumpStats, if_neg hk] at hp
      rcases List.mem_cons.1 hp with rfl | hp
      · exact hst (k, m) (List.mem_cons_self _ _)
      · exact ih (fun e he => hst e (List.mem_cons_of_mem _ he)) hn p hp

theorem bounded_processItems (w : Window) (items : List Item) (st : Stats) :
    Bounded st → Bounded (processItems w items st) := by
  induction items generalizing st with
  | nil => intro hst; simpa [processItems] using hst
  | cons i rest ih =>
    intro hst
    cases i with
    | readErr => simpa [processItems] using hst
    | line l =>
      rcases hp : parseLine l with _ | r
      · simp only [processItems, hp]; exact ih st hst
      · rcases ht : normTime r.time with _ | t
        · simpa [processItems, hp, ht] using hst
        · by_cases hw : inWindow w t = true
          · simp only [processItems, hp, ht, if_pos hw]
            exact ih _ (bounded_bumpStats st (bucketChars t) r.ip 1 hst (le_refl 1))
          · simp only [processItems, hp, ht, if_neg hw]
            exact ih st hst

theorem bounded_mergeInner (m : List (List Char × Nat)) (dst : Stats) (h : List Char) :
    Bounded dst → BoundedIn m → Bounded (mergeInner dst h m) := by
  induction m generalizing dst with
  | nil => intro hd _; simpa [mergeInner] using hd
  | cons q rest ih =>
    intro hd hm
    obtain ⟨ip, c⟩ := q
    simp only [mergeInner]
    exact ih _ (bounded_bumpStats dst h ip c hd (hm (ip, c) (List.mem_cons_self _ _)))
      (fun q hq => hm q (List.mem_cons_of_mem _ hq))

theorem bounded_mergeInto (src : Stats) (dst : Stats) :
    Bounded dst → Bounded src → Bounded (mergeInto dst src) := by
  induction src generalizing dst with
  | nil => intro hd _; simpa [mergeInto] using hd
  | cons q rest ih =>
    intro hd hs
    obtain ⟨h, m⟩ := q
    simp only [mergeInto]
    exact ih _ (bounded_mergeInner m dst h hd (hs (h, m) (List.mem_cons_self _ _)))
      (fun q hq => hs q (List.mem_cons_of_mem _ hq))

theorem boundedAll_bumpAll (a : AllStats) (d h ip : List Char) (n : Nat) :
    BoundedAll a → 1 ≤ n → BoundedAll (bumpAll a d h ip n) := by
  induction a with
  | nil =>
    intro _ hn p hp
    simp only [bumpAll, List.mem_singleton] at hp
    subst hp
    exact bounded_bumpStats [] h ip n (fun p hp => by simp at hp) hn
  | cons e rest ih =>
    intro ha hn p hp
    obtain ⟨k, st⟩ := e
    by_cases hk : k = d
    · simp only [bumpAll, if_pos hk] at hp
      rcases List.mem_cons.1 hp with rfl | hp
      · exact bounded_bumpStats st h ip n (ha (k, st) (List.mem_cons_self _ _)) hn
      · exact ha p (List.mem_cons_of_mem _ hp)
    · simp only [bumpAll, if_neg hk] at hp
      rcases List.mem_cons.1 hp with rfl | hp
      · exact ha (k, st) (List.mem_cons_self _ _)
      · exact ih (fun e he => ha e (List.mem_cons_of_mem _ he)) hn p hp

theorem boundedAll_addInner (m : List (List Char × Nat)) (a : AllStats) (d h : List Char) :
    BoundedAll a → BoundedIn m → BoundedAll (addInner a d h m) := by
  induction m generalizing a with
  | nil => intro ha _; simpa [addInner] using ha
  | cons q rest ih =>
    intro ha hm
    obtain ⟨ip, c⟩ := q
    simp only [addInner]
    exact ih _ (boundedAll_bumpAll a d h ip c ha (hm (ip, c) (List.mem_cons_self _ _)))
      (fun q hq => hm q (List.mem_cons_of_mem _ hq))

theorem boundedAll_addToGlobal (st : Stats) (a : AllStats) (d : List Char) :
    BoundedAll a → Bounded st → BoundedAll (addToGlobal a d st) := by
  induction st generalizing a with
  | nil => intro ha _; simpa [addToGlobal] using ha
  | cons q rest ih =>
    intro ha hs
    obtain ⟨h, m⟩ := q
    simp only [addToGlobal]
    exact ih _ (boundedAll_addInner m a d h ha (hs (h, m) (List.mem_cons_self _ _)))
      (fun q hq => hs q (List.mem_cons_of_mem _ hq))

theorem processItems_append_abort (w : Window) (pref : List Item) (i0 : Item)
    (rest : List Item) (st : Stats) (hp : ∀ i ∈ pref, aborts i = false)
    (h0 : aborts i0 = true) :
    processItems w (pref ++ i0 :: rest) st = processItems w pref st := by
  induction pref generalizing st with
  | nil =>
    cases i0 with
    | readErr => simp [processItems]
    | line l =>
      simp only [aborts] at h0
      rcases hp2 : parseLine l with _ | r
      · simp [hp2] at h0
      · simp only [hp2] at h0
        rcases ht : normTime r.time with _ | t
        · simp [processItems, hp2, ht]
        · simp [ht] at h0
  | cons i pref ih =>
    have hi : aborts i = false := hp i (List.mem_cons_self _ _)
    have hrest : ∀ j ∈ pref, aborts j = false :=
      fun j hj => hp j (List.mem_cons_of_mem _ hj)
    cases i with
    | readErr => simp [aborts] at hi
    | line l =>
      simp only [aborts] at hi
      rcases hp2 : parseLine l with _ | r
      · simp [processItems, hp2, ih _ hrest]
      · simp only [hp2] at hi
        rcases ht : normTime r.time with _ | t
        · simp [ht] at hi
        · by_cases hw : inWindow w t = true
          · simp [processItems, hp2, ht, hw, ih _ hrest]
          · simp [processItems, hp2, ht, hw, ih _ hrest]

theorem processLogs_skip_none (w : Window) (pre post : List (Option (List Item)))
    (st : Stats) :
    processLogs w (pre ++ none :: post) st = processLogs w (pre ++ post) st := by
  induction pre generalizing st with
  | nil => simp [processLogs]
  | cons s pre ih =>
    cases s <;> simp [processLogs, ih]

theorem processLogs_all_none (w : Window) (srcs : List (Option (List Item)))
    (st : Stats) (h : ∀ s ∈ srcs, s = none) :
    processLogs w srcs st = st := by
  induction srcs with
  | nil => simp [processLogs]
  | cons s rest ih =>
    have hs := h s (List.mem_cons_self _ _)
    subst hs
    simp [processLogs, ih (fun s hs => h s (List.mem_cons_of_mem _ hs))]

/-! ### Registry-loader lemmas -/

theorem loadDomains_skip (pre post : List (List Char)) (l : List Char)
    (acc : List (List Char × List Char)) (hl : procLine l = Except.ok none) :
    loadDomains (pre ++ l :: post) acc = loadDomains (pre ++ post) acc := by
  induction pre generalizing acc with
  | nil => simp [loadDomains, hl]
  | cons x pre ih =>
    rcases hx : procLine x with e | o
    · simp [loadDomains, hx]
    · rcases o with _ | ⟨d, u⟩ <;> simp [loadDomains, hx, ih]

theorem loadDomains_abort (pre post : List (List Char)) (l : List Char)
    (acc : List (List Char × List Char))
    (hpre : ∀ x ∈ pre, procLine x ≠ Except.error ())
    (hl : procLine l = Except.error ()) :
    loadDomains (pre ++ l :: post) acc = Except.error () := by
  induction pre generalizing acc with
  | nil => simp [loadDomains, hl]
  | cons x pre ih =>
    rcases hx : procLine x with e | o
    · cases e
      exact absurd hx (hpre x (List.mem_cons_self _ _))
    · have hpre2 : ∀ y ∈ pre, procLine y ≠ Except.error () :=
        fun y hy => hpre y (List.mem_cons_of_mem _ hy)
      rcases o with _ | ⟨d, u⟩ <;> simp [loadDomains, hx, ih _ hpre2]

/-! ### Line-parser lemmas -/

theorem munch1_ne_nil (p : Char → Bool) (cs : List Char) (q : List Char × List Char)
    (h : munch1 p cs = some q) : q.1 ≠ [] := by
  cases cs with
  | nil => simp [munch1] at h
  | cons c cs =>
    simp only [munch1] at h
    by_cases hc : p c = true
    · simp only [if_pos hc, Option.some_inj] at h
      subst h
      simp
    · simp [hc] at h

theorem quotedField_ne_nil (cs : List Char) (q : List Char × List Char)
    (h : quotedField cs = some q) : q.1 ≠ [] := by
  simp only [quotedField, Option.bind_eq_some, Option.map_eq_some'] at h
  obtain ⟨r1, h1, pq, h2, r3, h3, h4⟩ := h
  subst h4
  simpa using munch1_ne_nil _ _ _ h2

theorem parseChars_fields_ne_nil (cs : List Char) (r : Record)
    (h : parseChars cs = some r) :
    r.request ≠ [] ∧ r.referer ≠ [] ∧ r.user_agent ≠ [] := by
  simp only [parseChars, Option.bind_eq_some, Option.map_eq_some'] at h
  obtain ⟨hd, h1, tp, h2, rq, h3, r1, h4, md, h5, rf, h6, r2, h7, ua, h8, h9⟩ := h
  subst h9
  exact ⟨quotedField_ne_nil _ _ h3, quotedField_ne_nil _ _ h6, quotedField_ne_nil _ _ h8⟩

theorem expectCh_some_inv (c : Char) (cs r : List Char) (h : expectCh c cs = some r) :
    cs = c :: r := by
  cases cs with
  | nil => simp [expectCh] at h
  | cons d rest =>
    simp only [expectCh] at h
    by_cases hd : d = c
    · simp only [if_pos hd, Option.some_inj] at h
      subst h
      simp [hd]
    · simp [hd] at h

theorem expectCh_cons_self (c : Char) (rest : List Char) :
    expectCh c (c :: rest) = some rest := by
  simp [expectCh]

theorem dropWhile_takeWhile_append (p : Char → Bool) (cs ex : List Char) (d : Char)
    (ds : List Char) (h : cs.dropWhile p = d :: ds) :
    (cs ++ ex).takeWhile p = cs.takeWhile p ∧ (cs ++ ex).dropWhile p = d :: (ds ++ ex) := by
  induction cs with
  | nil => simp at h
  | cons c cs ih =>
    by_cases hc : p c = true
    · rw [List.dropWhile_cons, if_pos hc] at h
      obtain ⟨h1, h2⟩ := ih h
      constructor
      · simp [List.takeWhile_cons, hc, h1]
      · simp [List.dropWhile_cons, hc, h2]
    · rw [List.dropWhile_cons, if_neg hc] at h
      injection h with h1 h2
      subst h1
      subst h2
      constructor
      · simp [List.takeWhile_cons, hc]
      · simp [List.dropWhile_cons, hc]

theorem munch1_append (p : Char → Bool) (cs ex xs : List Char) (d : Char) (ds : List Char)
    (h : munch1 p cs = some (xs, d :: ds)) :
    munch1 p (cs ++ ex) = some (xs, d :: (ds ++ ex)) := by
  cases cs with
  | nil => simp [munch1] at h
  | cons c cs =>
    simp only [munch1] at h
    by_cases hc : p c = true
    · simp only [if_pos hc, Option.some_inj, Prod.mk.injEq] at h
      obtain ⟨h1, h2⟩ := h
      obtain ⟨ht, hd2⟩ := dropWhile_takeWhile_append p cs ex d ds h2
      simp only [List.cons_append, munch1, if_pos hc, ht, hd2, h1]
    · simp [hc] at h

theorem digit3_append (cs ex xs r2 : List Char) (h : digit3 cs = some (xs, r2)) :
    digit3 (cs ++ ex) = some (xs, r2 ++ ex) := by
  rcases cs with _ | ⟨a, _ | ⟨b, _ | ⟨c, rest⟩⟩⟩
  · simp [digit3] at h
  · simp [digit3] at h
  · simp [digit3] at h
  · simp only [digit3] at h
    by_cases hd : isDigitCh a = true ∧ isDigitCh b = true ∧ isDigitCh c = true
    · simp only [if_pos hd, Option.some_inj, Prod.mk.injEq] at h
      obtain ⟨h1, h2⟩ := h
      subst h1
      subst h2
      simp only [List.cons_append, digit3, if_pos hd]
    · simp [hd] at h

theorem parseHead_append (cs ex : List Char) (q : List Char × List Char)
    (h : parseHead cs = some q) : parseHead (cs ++ ex) = some (q.1, q.2 ++ ex) := by
  simp only [parseHead, Option.bind_eq_some, Option.map_eq_some'] at h
  obtain ⟨p1, h1, r2, h2, p2, h3, r4, h4, p3, h5, r6, h6, r7, h7, h8⟩ := h
  subst h8
  have h1a : munch1 isNonSpace cs = some (p1.1, ' ' :: r2) := by
    rw [← expectCh_some_inv _ _ _ h2]
    exact h1
  have h3a : munch1 isNonSpace r2 = some (p2.1, ' ' :: r4) := by
    rw [← expectCh_some_inv _ _ _ h4]
    exact h3
  have h5a : munch1 isNonSpace r4 = some (p3.1, ' ' :: r6) := by
    rw [← expectCh_some_inv _ _ _ h6]
    exact h5
  have e7 := expectCh_some_inv _ _ _ h7
  subst e7
  simp only [parseHead, munch1_append _ _ ex _ _ _ h1a, Option.some_bind,
    expectCh_cons_self, munch1_append _ _ ex _ _ _ h3a, munch1_append _ _ ex _ _ _ h5a,
    List.cons_append, Option.map_some']

theorem parseTimePart_append (cs ex : List Char) (q : List Char × List Char)
    (h : parseTimePart cs = some q) : parseTimePart (cs ++ ex) = some (q.1, q.2 ++ ex) := by
  simp only [parseTimePart, Option.bind_eq_some, Option.map_eq_some'] at h
  obtain ⟨pt, h1, r9, h2, r10, h3, h4⟩ := h
  subst h4
  have h1a : munch1 (fun c => c != ']') cs = some (pt.1, ']' :: r9) := by
    rw [← expectCh_some_inv _ _ _ h2]
    exact h1
  have e3 := expectCh_some_inv _ _ _ h3
  subst e3
  simp only [parseTimePart, munch1_append _ _ ex _ _ _ h1a, Option.some_bind,
    expectCh_cons_self, List.cons_append, Option.map_some']

theorem quotedField_append (cs ex : List Char) (q : List Char × List Char)
    (h : quotedField cs = some q) : quotedField (cs ++ ex) = some (q.1, q.2 ++ ex) := by
  simp only [quotedField, Option.bind_eq_some, Option.map_eq_some'] at h
  obtain ⟨r1, h1, pq, h2, r3, h3, h4⟩ := h
  subst h4
  have e1 := expectCh_some_inv _ _ _ h1
  subst e1
  have h2a : munch1 (fun c => c != '"') r1 = some (pq.1, '"' :: r3) := by
    rw [← expectCh_some_inv _ _ _ h3]
    exact h2
  simp only [List.cons_append, quotedField, expectCh_cons_self, Option.some_bind,
    munch1_append _ _ ex _ _ _ h2a, Option.map_some']

theorem parseMid_append (cs ex : List Char) (q : List Char × List Char × List Char)
    (h : parseMid cs = some q) :
    parseMid (cs ++ ex) = some (q.1, q.2.1, q.2.2 ++ ex) := by
  simp only [parseMid, Option.bind_eq_some, Option.map_eq_some'] at h
  obtain ⟨ps, h1, r2, h2, pz, h3, r4, h4, h5⟩ := h
  subst h5
  have h1a : digit3 cs = some (ps.1, ' ' :: r2) := by
    rw [← expectCh_some_inv _ _ _ h2]
    exact h1
  have h3a : munch1 isNonSpace r2 = some (pz.1, ' ' :: r4) := by
    rw [← expectCh_some_inv _ _ _ h4]
    exact h3
  simp only [parseMid, digit3_append _ ex _ _ h1a, Option.some_bind, List.cons_append,
    expectCh_cons_self, munch1_append _ _ ex _ _ _ h3a, Option.map_some']

theorem parseChars_append (cs ex : List Char) (r : Record) (h : parseChars cs = some r) :
    parseChars (cs ++ ex) = some r := by
  simp only [parseChars, Option.bind_eq_some, Option.map_eq_some'] at h
  obtain ⟨hd, h1, tp, h2, rq, h3, r1, h4, md, h5, rf, h6, r2, h7, ua, h8, h9⟩ := h
  subst h9
  have e4 := expectCh_some_inv _ _ _ h4
  have e7 := expectCh_some_inv _ _ _ h7
  have a1 := parseHead_append cs ex hd h1
  have a2 := parseTimePart_append hd.2 ex tp h2
  have a3 := quotedField_append tp.2 ex rq h3
  have a5 := parseMid_append r1 ex md h5
  have a6 := quotedField_append md.2.2 ex rf h6
  have a8 := quotedField_append r2 ex ua h8
  simp only [parseChars, a1, Option.some_bind, a2, a3, e4, List.cons_append,
    expectCh_cons_self, a5, a6, e7, a8, Option.map_some']

/-! ### Hour-bucket ordering lemmas -/

theorem lex_cons_cons_iff (a b : Char) (l1 l2 : List Char) :
    List.Lex (· < ·) (a :: l1) (b :: l2) ↔ a < b ∨ (a = b ∧ List.Lex (· < ·) l1 l2) := by
  constructor
  · intro h
    cases h with
    | cons h => exact Or.inr ⟨rfl, h⟩
    | rel h => exact Or.inl h
  · rintro (h | ⟨rfl, h⟩)
    · exact List.Lex.rel h
    · exact List.Lex.cons h

theorem lex_append_iff (xs ys as bs : List Char) (hlen : xs.length = ys.length) :
    List.Lex (· < ·) (xs ++ as) (ys ++ bs) ↔
      List.Lex (· < ·) xs ys ∨ (xs = ys ∧ List.Lex (· < ·) as bs) := by
  induction xs generalizing ys with
  | nil =>
    cases ys with
    | nil => simp
    | cons y ys => simp at hlen
  | cons x xs ih =>
    cases ys with
    | nil => simp at hlen
    | cons y ys =>
      simp only [List.cons_append, lex_cons_cons_iff, List.cons.injEq]
      rw [ih ys (by simpa using hlen)]
      constructor
      · rintro (h | ⟨rfl, h | ⟨rfl, h⟩⟩)
        · exact Or.inl (Or.inl h)
        · exact Or.inl (Or.inr ⟨rfl, h⟩)
        · exact Or.inr ⟨⟨rfl, rfl⟩, h⟩
      · rintro ((h | ⟨rfl, h⟩) | ⟨⟨rfl, rfl⟩, h⟩)
        · exact Or.inl h
        · exact Or.inr ⟨rfl, Or.inl h⟩
        · exact Or.inr ⟨rfl, Or.inr ⟨rfl, h⟩⟩

theorem padNat_length (w n : Nat) : (padNat w n).length = w := by
  induction w generalizing n with
  | zero => simp [padNat]
  | succ w ih => simp [padNat, ih]

theorem digitChar_lt_iff : ∀ d < 10, ∀ e < 10, (digitChar d < digitChar e ↔ d < e) := by
  decide

theorem digitChar_eq_iff : ∀ d < 10, ∀ e < 10, (digitChar d = digitChar e ↔ d = e) := by
  decide

theorem padNat_lt_eq_iff (w : Nat) : ∀ m n : Nat, m < 10 ^ w → n < 10 ^ w →
    ((List.Lex (· < ·) (padNat w m) (padNat w n) ↔ m < n) ∧
      (padNat w m = padNat w n ↔ m = n)) := by
  induction w with
  | zero =>
    intro m n hm hn
    have hm0 : m = 0 := by simpa using hm
    have hn0 : n = 0 := by simpa using hn
    subst hm0
    subst hn0
    simp [padNat]
  | succ w ih =>
    intro m n hm hn
    have hten : (0 : Nat) < 10 := by norm_num
    have hm2 : m / 10 < 10 ^ w := by
      rw [Nat.div_lt_iff_lt_mul hten]
      calc m < 10 ^ (w + 1) := hm
        _ = 10 ^ w * 10 := pow_succ 10 w
    have hn2 : n / 10 < 10 ^ w := by
      rw [Nat.div_lt_iff_lt_mul hten]
      calc n < 10 ^ (w + 1) := hn
        _ = 10 ^ w * 10 := pow_succ 10 w
    have hmd : m % 10 < 10 := Nat.mod_lt _ hten
    have hnd : n % 10 < 10 := Nat.mod_lt _ hten
    obtain ⟨ihlt, iheq⟩ := ih (m / 10) (n / 10) hm2 hn2
    constructor
    · rw [padNat, padNat, lex_append_iff _ _ _ _ (by simp [padNat_length]), ihlt, iheq,
        List.Lex.singleton_iff, digitChar_lt_iff _ hmd _ hnd]
      omega
    · simp only [padNat]
      constructor
      · intro h
        obtain ⟨h1, h2⟩ := List.append_inj h (by simp [padNat_length])
        have e1 : m / 10 = n / 10 := iheq.1 h1
        have h2a : digitChar (m % 10) = digitChar (n % 10) := by
          simpa using h2
        have e2 : m % 10 = n % 10 := (digitChar_eq_iff _ hmd _ hnd).1 h2a
        omega
      · intro h
        subst h
        rfl

theorem bucketChars_lex_iff (t1 t2 : DateTime)
    (hy1 : t1.year < 10000) (hy2 : t2.year < 10000)
    (hmo1 : t1.month < 100) (hmo2 : t2.month < 100)
    (hd1 : t1.day < 100) (hd2 : t2.day < 100)
    (hh1 : t1.hour < 100) (hh2 : t2.hour < 100) :
    (List.Lex (· < ·) (bucketChars t1) (bucketChars t2) ↔ hourLt t1 t2) := by
  have e4 : (10 : Nat) ^ 4 = 10000 := by norm_num
  have e2 : (10 : Nat) ^ 2 = 100 := by norm_num
  obtain ⟨ylt, yeq⟩ := padNat_lt_eq_iff 4 t1.year t2.year (by omega) (by omega)
  obtain ⟨molt, moeq⟩ := padNat_lt_eq_iff 2 t1.month t2.month (by omega) (by omega)
  obtain ⟨dlt, deq⟩ := padNat_lt_eq_iff 2 t1.day t2.day (by omega) (by omega)
  obtain ⟨hlt, heq⟩ := padNat_lt_eq_iff 2 t1.hour t2.hour (by omega) (by omega)
  have cdash : ¬ (('-' : Char) < '-') := by decide
  have cspace : ¬ ((' ' : Char) < ' ') := by decide
  have ccolon : ¬ ((':' : Char) < ':') := by decide
  have czero : ¬ (('0' : Char) < '0') := by decide
  simp only [bucketChars, lex_append_iff, padNat_length, lex_cons_cons_iff, cdash, cspace,
    ccolon, czero, List.Lex.not_nil_right, false_or, false_and, or_false, and_false,
    true_and, ylt, yeq, molt, moeq, dlt, deq, hlt, heq, hourLt]

/-! ### Timestamp bound lemmas -/

theorem digitVal_le9 (c : Char) (h : isDigitCh c = true) : digitVal c ≤ 9 := by
  simp only [isDigitCh, decide_eq_true_eq] at h
  obtain ⟨h1, h2⟩ := h
  have h3 : c.toNat ≤ 57 := h2
  simp only [digitVal]
  omega

theorem readNum2_bounds (lo2 hi2 lo1 : Nat) (cs : List Char) (p : Nat × List Char)
    (h : readNum2 lo2 hi2 lo1 cs = some p) : p.1 ≤ hi2 ∨ p.1 ≤ 9 := by
  rcases cs with _ | ⟨c1, _ | ⟨c2, rest⟩⟩
  · simp [readNum2] at h
  · simp only [readNum2] at h
    split at h
    · rename_i hc
      simp only [Option.some_inj] at h
      subst h
      exact Or.inr (digitVal_le9 c1 hc.1)
    · simp at h
  · simp only [readNum2] at h
    split at h
    · rename_i hc1
      split at h
      · split at h
        · rename_i hv
          simp only [Option.some_inj] at h
          subst h
          exact Or.inl hv.2
        · simp at h
      · split at h
        · simp only [Option.some_inj] at h
          subst h
          exact Or.inr (digitVal_le9 c1 hc1)
        · simp at h
    · simp at h

theorem readYear4_bounds (cs : List Char) (p : Nat × List Char)
    (h : readYear4 cs = some p) : p.1 ≤ 9999 := by
  rcases cs with _ | ⟨a, _ | ⟨b, _ | ⟨c, _ | ⟨d, rest⟩⟩⟩⟩
  · simp [readYear4] at h
  · simp [readYear4] at h
  · simp [readYear4] at h
  · simp [readYear4] at h
  · simp only [readYear4] at h
    split at h
    · rename_i hd4
      simp only [Option.some_inj] at h
      subst h
      have ha := digitVal_le9 a hd4.1
      have hb := digitVal_le9 b hd4.2.1
      have hc := digitVal_le9 c hd4.2.2.1
      have hd := digitVal_le9 d hd4.2.2.2
      simp only
      omega
    · simp at h

theorem monthNum_bounds (a b c : Char) (m : Nat) (h : monthNum a b c = some m) :
    1 ≤ m ∧ m ≤ 12 := by
  unfold monthNum at h
  split_ifs at h with hi
  cases h
  omega

theorem daysInMonth_le31 (y m : Nat) : daysInMonth y m ≤ 31 := by
  simp only [daysInMonth]
  split_ifs <;> omega

theorem readHMS_hour_le (cs : List Char) (q : Nat × Nat × Nat × List Char)
    (h : readHMS cs = some q) : q.1 ≤ 23 := by
  simp only [readHMS, Option.bind_eq_some, Option.map_eq_some'] at h
  obtain ⟨ph, g1, s2, g2, pmi, g3, s4, g4, ps, g5, hq⟩ := h
  subst hq
  have := readNum2_bounds 0 23 0 cs ph g1
  simp only
  omega

theorem parseTimestamp_bounds (cs : List Char) (t : DateTime)
    (h : parseTimestamp cs = some t) :
    1 ≤ t.year ∧ t.year ≤ 9999 ∧ 1 ≤ t.month ∧ t.month ≤ 12 ∧ t.day ≤ 31 ∧
      t.hour ≤ 23 := by
  simp only [parseTimestamp, Option.bind_eq_some] at h
  obtain ⟨pd, h1, r2, h2, pm, h3, r4, h4, py, h5, r6, h6, hms, h7, hfin⟩ := h
  split at hfin
  · rename_i hcond
    simp only [Option.some_inj] at hfin
    subst hfin
    have hy := readYear4_bounds r4 py h5
    have hmo : 1 ≤ pm.1 ∧ pm.1 ≤ 12 := by
      rcases r2 with _ | ⟨a, _ | ⟨b, _ | ⟨c, rest⟩⟩⟩
      · simp [readMonth] at h3
      · simp [readMonth] at h3
      · simp [readMonth] at h3
      · simp only [readMonth, Option.map_eq_some'] at h3
        obtain ⟨m, hm, hpm⟩ := h3
        have := monthNum_bounds a.toLower b.toLower c.toLower m hm
        rw [← hpm]
        simpa using this
    have hh := readHMS_hour_le r6 hms h7
    have hdle : pd.1 ≤ daysInMonth py.1 pm.1 := hcond.2.2
    have := daysInMonth_le31 py.1 pm.1
    have hy1 : 1 ≤ py.1 := hcond.2.1
    simp only
    omega
  · simp at hfin

theorem normTime_bounds (cs : List Char) (t : DateTime) (h : normTime cs = some t) :
    t.year < 10000 ∧ t.month < 100 ∧ t.day < 100 ∧ t.hour < 100 := by
  simp only [normTime, Option.bind_eq_some] at h
  obtain ⟨tok, h1, h2⟩ := h
  have := parseTimestamp_bounds tok t h2
  omega

/-! ### Claim theorems -/

/-- C1: merging the archived-log table into the live-log table and then into
the global table sums counts at matching (domain, hour, ip) keys: if the live
log contributes `m` matching lines at a key and the archive `n`, the final
count there is `m + n` (on top of whatever the global table already held for
other domains), never an overwrite; concretely, 3 live lines plus 2 archived
lines with the same ip and hour yield count 5. -/
theorem c1_merge_sums :
    (∀ (w : Window) (live arch : List Item) (all : AllStats) (d h ip : List Char),
      getCount (mergeInto (processItems w live []) (processItems w arch [])) h ip =
        countKeyed w h ip live + countKeyed w h ip arch ∧
      getAll (addToGlobal all d (mergeInto (processItems w live [])
          (processItems w arch []))) d h ip =
        getAll all d h ip + (countKeyed w h ip live + countKeyed w h ip arch)) ∧
    getCount (mergeInto
        (processItems sampleWindow
          [Item.line sampleGood, Item.line sampleGood, Item.line sampleGood] [])
        (processItems sampleWindow [Item.line sampleGood, Item.line sampleGood] []))
      "2024-03-15 09:00".data "1.2.3.4".data = 5 := by
  constructor
  · intro w live arch all d h ip
    have hg : getCount (processItems w live []) h ip = countKeyed w h ip live := by
      simpa [getCount] using getCount_processItems w live [] h ip
    have htl : totalCount (processItems w live []) h ip = countKeyed w h ip live := by
      simpa [totalCount] using totalCount_processItems w live [] h ip
    have hta : totalCount (processItems w arch []) h ip = countKeyed w h ip arch := by
      simpa [totalCount] using totalCount_processItems w arch [] h ip
    constructor
    · rw [getCount_mergeInto, hg, hta]
    · rw [getAll_addToGlobal, if_pos rfl, totalCount_mergeInto, htl, hta]
  · decide

/-- C2 counterexample: the claim says a line whose bracketed timestamp text
deviates from `DD/Mon/YYYY:HH:MM:SS` is discarded exactly as a non-matching
line, with processing of the remaining lines of the same source continuing.
In the code the `strptime` `ValueError` is caught by the per-file handler, so
on the source `[sampleBadTime, sampleGood]` the good line is never processed:
the result differs from processing `[sampleGood]` alone and is empty. -/
theorem c2_counterexample :
    processItems sampleWindow [Item.line sampleBadTime, Item.line sampleGood] [] ≠
      processItems sampleWindow [Item.line sampleGood] [] ∧
    processItems sampleWindow [Item.line sampleBadTime, Item.line sampleGood] [] = [] ∧
    processItems sampleWindow [Item.line sampleGood] [] =
      [("2024-03-15 09:00".data, [("1.2.3.4".data, 1)])] := by
  refine ⟨by decide, by decide, by decide⟩

/-- C2 (amended): a line that matches the grammar but whose timestamp text
fails `split()[0]`/`strptime` aborts processing of the REST of that source
(the counts accumulated from earlier lines are kept), and the failure is
non-fatal to the run: the remaining sources are still processed. -/
theorem c2_timestamp_aborts_rest_of_file (w : Window) (pref : List Item) (l : String)
    (rest : List Item) (srcs : List (Option (List Item))) (st : Stats)
    (hpref : ∀ i ∈ pref, aborts i = false)
    (hline : aborts (Item.line l) = true) :
    processItems w (pref ++ Item.line l :: rest) st = processItems w pref st ∧
    processLogs w (some (pref ++ Item.line l :: rest) :: srcs) st =
      processLogs w srcs (processItems w pref st) := by
  constructor
  · exact processItems_append_abort w pref _ rest st hpref hline
  · simp only [processLogs, processItems_append_abort w pref _ rest st hpref hline]

/-- Witness for the amended C2 at a concrete input. -/
theorem c2_witness :
    processItems sampleWindow
        ([Item.line sampleGood] ++ Item.line sampleBadTime :: [Item.line sampleGood2]) [] =
      processItems sampleWindow [Item.line sampleGood] [] :=
  (c2_timestamp_aborts_rest_of_file sampleWindow [Item.line sampleGood] sampleBadTime
    [Item.line sampleGood2] [] [] (by decide) (by decide)).1

/-- C3 counterexample: the claim says a registry line whose first `==`-field
is a malformed `domain:user` segment is skipped and the remaining well-formed
lines still load. In the code the tuple unpacking of `parts[0].split(":")`
raises an uncaught `ValueError`, so the whole load fails on
`["bad==x", "good.com:bob==y"]` even though the second line alone loads. -/
theorem c3_counterexample :
    parse_domain_list ["bad==x".data, "good.com:bob==y".data] = Except.error () ∧
    parse_domain_list ["good.com:bob==y".data] =
      Except.ok [("good.com".data, "bob".data)] := by
  exact ⟨rfl, rfl⟩

/-- C3 (amended): a registry line with no `==` separator (fewer than two
`==`-fields) is skipped and the remaining lines load; but a line whose first
`==`-field does not split on `:` into exactly two parts raises an uncaught
exception that aborts the whole load (the load also fails if the file cannot
be opened at all). -/
theorem c3_no_separator_skipped_bad_colon_fatal (pre post : List (List Char))
    (l : List Char) (hskip : procLine l = Except.ok none)
    (pre2 post2 : List (List Char)) (l2 : List Char)
    (hpre2 : ∀ x ∈ pre2, procLine x ≠ Except.error ())
    (herr : procLine l2 = Except.error ()) :
    parse_domain_list (pre ++ l :: post) = parse_domain_list (pre ++ post) ∧
    parse_domain_list (pre2 ++ l2 :: post2) = Except.error () := by
  constructor
  · exact loadDomains_skip pre post l [] hskip
  · exact loadDomains_abort pre2 post2 l2 [] hpre2 herr

/-- Witness for the amended C3 at a concrete input. -/
theorem c3_witness :
    parse_domain_list ([] ++ "noequals".data :: ["good.com:bob==y".data]) =
      parse_domain_list ([] ++ ["good.com:bob==y".data]) ∧
    parse_domain_list (["good.com:bob==y".data] ++ "bad==x".data :: []) =
      Except.error () :=
  c3_no_separator_skipped_bad_colon_fatal [] ["good.com:bob==y".data] "noequals".data rfl
    ["good.com:bob==y".data] [] "bad==x".data
    (by
      intro x hx
      rw [List.mem_singleton] at hx
      subst hx
      intro hc
      exact Except.noConfusion
        ((rfl : procLine "good.com:bob==y".data =
            Except.ok (some ("good.com".data, "bob".data))).symm.trans hc))
    rfl

/-- C4: for every window with start ≤ end, a parsed record is counted iff
`start ≤ record-date ≤ end` at date-only granularity: the filter is exactly
the inclusive date comparison, two timestamps with the same calendar date are
filtered identically (time of day is irrelevant), an out-of-window line
contributes to no bucket, and an in-window line increments exactly its
(hour-bucket, ip) key. -/
theorem c4_date_window_filter (w : Window)
    (_hse : dateLeB w.start_date w.end_date = true) (t : DateTime) :
    (inWindow w t = true ↔
      (dateLeB w.start_date (dateOf t) = true ∧ dateLeB (dateOf t) w.end_date = true)) ∧
    (∀ t2 : DateTime, dateOf t2 = dateOf t → inWindow w t2 = inWindow w t) ∧
    (∀ (l : String) (r : Record) (st : Stats), parseLine l = some r →
      normTime r.time = some t → inWindow w t = false →
      processItems w [Item.line l] st = st) ∧
    (∀ (l : String) (r : Record) (st : Stats) (h ip : List Char), parseLine l = some r →
      normTime r.time = some t → inWindow w t = true →
      getCount (processItems w [Item.line l] st) h ip =
        getCount st h ip + (if h = bucketChars t ∧ ip = r.ip then 1 else 0)) := by
  refine ⟨?_, ?_, ?_, ?_⟩
  · simp [inWindow]
  · intro t2 h2
    simp only [inWindow, h2]
  · intro l r st hp ht hw
    simp [processItems, hp, ht, hw]
  · intro l r st h ip hp ht hw
    simp [processItems, hp, ht, hw, getCount_bumpStats]

/-- Witness for C4 at a concrete window and timestamp. -/
theorem c4_witness :
    inWindow sampleWindow ⟨2024, 3, 15, 9, 47, 33⟩ = true ↔
      (dateLeB sampleWindow.start_date (dateOf ⟨2024, 3, 15, 9, 47, 33⟩) = true ∧
        dateLeB (dateOf ⟨2024, 3, 15, 9, 47, 33⟩) sampleWindow.end_date = true) :=
  (c4_date_window_filter sampleWindow (by decide) ⟨2024, 3, 15, 9, 47, 33⟩).1

/-- C5: the hour bucket is the timestamp truncated to its containing hour,
rendered as the fixed-width string `YYYY-MM-DD HH:00`: the raw timestamp
`15/Mar/2024:09:47:33` normalizes to 2024-03-15 09:47:33 and buckets to
`"2024-03-15 09:00"`; the bucket ignores minutes and seconds; every
normalized timestamp has year below 10000 and month, day, hour below 100
(strptime yields a four-digit year), and within those bounds lexicographic
order of bucket strings coincides with chronological order of the
underlying hours. -/
theorem c5_hour_bucket :
    (normTime "15/Mar/2024:09:47:33".data = some ⟨2024, 3, 15, 9, 47, 33⟩ ∧
      String.mk (bucketChars ⟨2024, 3, 15, 9, 47, 33⟩) = "2024-03-15 09:00") ∧
    (∀ t : DateTime, bucketChars t = bucketChars ⟨t.year, t.month, t.day, t.hour, 0, 0⟩) ∧
    (∀ (cs : List Char) (t : DateTime), normTime cs = some t →
      t.year < 10000 ∧ t.month < 100 ∧ t.day < 100 ∧ t.hour < 100) ∧
    (∀ t1 t2 : DateTime, t1.year < 10000 → t2.year < 10000 → t1.month < 100 →
      t2.month < 100 → t1.day < 100 → t2.day < 100 → t1.hour < 100 → t2.hour < 100 →
      (String.mk (bucketChars t1) < String.mk (bucketChars t2) ↔ hourLt t1 t2)) := by
  refine ⟨⟨by decide, by decide⟩, fun t => rfl, normTime_bounds, ?_⟩
  intro t1 t2 hy1 hy2 hmo1 hmo2 hd1 hd2 hh1 hh2
  rw [String.lt_iff_toList_lt]
  show List.Lex (· < ·) (bucketChars t1) (bucketChars t2) ↔ hourLt t1 t2
  exact bucketChars_lex_iff t1 t2 hy1 hy2 hmo1 hmo2 hd1 hd2 hh1 hh2

/-- Witness for C5 at two concrete timestamps. -/
theorem c5_witness :
    String.mk (bucketChars ⟨2024, 3, 15, 9, 47, 33⟩) <
        String.mk (bucketChars ⟨2024, 3, 15, 10, 0, 0⟩) ↔
      hourLt ⟨2024, 3, 15, 9, 47, 33⟩ ⟨2024, 3, 15, 10, 0, 0⟩ :=
  c5_hour_bucket.2.2.2 ⟨2024, 3, 15, 9, 47, 33⟩ ⟨2024, 3, 15, 10, 0, 0⟩ (by decide)
    (by decide) (by decide) (by decide) (by decide) (by decide) (by decide) (by decide)

/-- C6: an absent candidate source contributes zero counts and processing
continues with the remaining sources (deleting a `none` source changes
nothing); a domain all of whose candidate sources are missing yields the
empty table; and the empty table merges into the live table and the global
table through the ordinary code path, as the identity. -/
theorem c6_missing_sources (w : Window) :
    (∀ (pre post : List (Option (List Item))) (st : Stats),
      processLogs w (pre ++ none :: post) st = processLogs w (pre ++ post) st) ∧
    (∀ srcs : List (Option (List Item)), (∀ s ∈ srcs, s = none) →
      processLogs w srcs [] = []) ∧
    (∀ (all : AllStats) (d : List Char), addToGlobal all d [] = all) ∧
    (∀ dst : Stats, mergeInto dst [] = dst) := by
  refine ⟨fun pre post st => processLogs_skip_none w pre post st,
    fun srcs h => processLogs_all_none w srcs [] h, fun all d => rfl, fun dst => rfl⟩

/-- Witness for C6: a domain whose live logs and archives are all absent
produces the empty table. -/
theorem c6_witness :
    processLogs sampleWindow [none, none, none, none] [] = [] :=
  (c6_missing_sources sampleWindow).2.1 [none, none, none, none] (by decide)

/-- C7: every table the run builds keeps the invariant that each present
(hour, ip) entry has count at least 1 (absence, never a stored zero, encodes
zero), the invariant is preserved by per-line processing, by the archive
merge and by the global merge; and each key's count only ever grows as lines
are processed and tables merged, never decreasing or resetting. -/
theorem c7_count_invariants :
    (∀ (w : Window) (items : List Item) (st : Stats), Bounded st →
      Bounded (processItems w items st)) ∧
    (∀ dst src : Stats, Bounded dst → Bounded src → Bounded (mergeInto dst src)) ∧
    (∀ (a : AllStats) (d : List Char) (st : Stats), BoundedAll a → Bounded st →
      BoundedAll (addToGlobal a d st)) ∧
    (∀ (w : Window) (items : List Item) (st : Stats) (h ip : List Char),
      getCount st h ip ≤ getCount (processItems w items st) h ip) ∧
    (∀ (dst src : Stats) (h ip : List Char),
      getCount dst h ip ≤ getCount (mergeInto dst src) h ip) ∧
    (∀ (a : AllStats) (d : List Char) (st : Stats) (d2 h ip : List Char),
      getAll a d2 h ip ≤ getAll (addToGlobal a d st) d2 h ip) := by
  refine ⟨fun w items st h => bounded_processItems w items st h,
    fun dst src h1 h2 => bounded_mergeInto src dst h1 h2,
    fun a d st h1 h2 => boundedAll_addToGlobal st a d h1 h2, ?_, ?_, ?_⟩
  · intro w items st h ip
    rw [getCount_processItems]
    omega
  · intro dst src h ip
    rw [getCount_mergeInto]
    omega
  · intro a d st d2 h ip
    rw [getAll_addToGlobal]
    split <;> omega

/-- Witness for C7 at a concrete run from the empty table. -/
theorem c7_witness :
    Bounded (processItems sampleWindow [Item.line sampleGood] []) :=
  c7_count_invariants.1 sampleWindow [Item.line sampleGood] []
    (fun p hp => absurd hp (List.not_mem_nil p))

/-- C8: a read failure mid-stream keeps the counts of the k lines already
processed (it only stops that one source) and processing continues with the
remaining sources: the run equals processing the clean prefix and then the
sibling sources, and the prefix's counts are exactly added to the table. -/
theorem c8_partial_source_kept (w : Window) (pref rest : List Item)
    (srcs : List (Option (List Item))) (st : Stats) (h ip : List Char)
    (hpref : ∀ i ∈ pref, aborts i = false) :
    processLogs w (some (pref ++ Item.readErr :: rest) :: srcs) st =
      processLogs w srcs (processItems w pref st) ∧
    getCount (processItems w pref st) h ip = getCount st h ip + countKeyed w h ip pref := by
  constructor
  · simp only [processLogs,
      processItems_append_abort w pref Item.readErr rest st hpref rfl]
  · exact getCount_processItems w pref st h ip

/-- Witness for C8 at a concrete failing source. -/
theorem c8_witness :
    processLogs sampleWindow
        [some ([Item.line sampleGood] ++ Item.readErr :: [Item.line sampleGood2]),
          some [Item.line sampleGood2]] [] =
      processLogs sampleWindow [some [Item.line sampleGood2]]
        (processItems sampleWindow [Item.line sampleGood] []) :=
  (c8_partial_source_kept sampleWindow [Item.line sampleGood] [Item.line sampleGood2]
    [some [Item.line sampleGood2]] [] [] [] (by decide)).1

/-- C9: each quote-delimited field of `LOG_FORMAT` must contain at least one
character: any successfully parsed record has nonempty request, referer and
user-agent fields, and a line in which any one of the three quoted fields is
the empty `""` does not match and is skipped. -/
theorem c9_empty_quoted_field_no_match :
    (∀ (cs : List Char) (r : Record), parseChars cs = some r →
      r.request ≠ [] ∧ r.referer ≠ [] ∧ r.user_agent ≠ []) ∧
    parseLine
      "1.2.3.4 - - [15/Mar/2024:09:47:33 +0000] \"\" 200 123 \"-\" \"UA\"" = none ∧
    parseLine
      "1.2.3.4 - - [15/Mar/2024:09:47:33 +0000] \"GET /\" 200 123 \"\" \"UA\"" = none ∧
    parseLine
      "1.2.3.4 - - [15/Mar/2024:09:47:33 +0000] \"GET /\" 200 123 \"-\" \"\"" = none := by
  exact ⟨parseChars_fields_ne_nil, by decide, by decide, by decide⟩

/-- Witness for C9's universal part at a concrete parsed line. -/
theorem c9_witness :
    ("GET / HTTP/1.1".data ≠ ([] : List Char)) ∧ ("-".data ≠ ([] : List Char)) ∧
      ("UA".data ≠ ([] : List Char)) :=
  c9_empty_quoted_field_no_match.1 sampleGood.data
    ⟨"1.2.3.4".data, "15/Mar/2024:09:47:33 +0000".data, "GET / HTTP/1.1".data,
      "200".data, "123".data, "-".data, "UA".data⟩ (by decide)

/-- C10: `re.match` anchors at the start but not at the end: a parsed line
stays parsed, with the same record, after appending arbitrary trailing text,
and such a line is still counted into its (hour, ip) key. -/
theorem c10_prefix_match :
    (∀ (cs extra : List Char) (r : Record), parseChars cs = some r →
      parseChars (cs ++ extra) = some r) ∧
    parseLine (sampleGood ++ " extra trailing junk") = parseLine sampleGood ∧
    processItems sampleWindow [Item.line (sampleGood ++ " extra trailing junk")] [] =
      [("2024-03-15 09:00".data, [("1.2.3.4".data, 1)])] := by
  exact ⟨parseChars_append, by decide, by decide⟩

/-- Witness for C10's universal part at a concrete line and trailing text. -/
theorem c10_witness :
    parseChars (sampleGood.data ++ " junk".data) =
      some ⟨"1.2.3.4".data, "15/Mar/2024:09:47:33 +0000".data, "GET / HTTP/1.1".data,
        "200".data, "123".data, "-".data, "UA".data⟩ :=
  c10_prefix_match.1 sampleGood.data " junk".data _ (by decide)

end ApacheLogs
